import Mathlib

/-!
Verification of the key manager and UTXO coin-selection core
(package `key`, file `internal/key/key.go`).

The Go source is shallowly embedded below.  Byte strings are `List Nat`
(each entry a byte value), text is `List Char`, fallible operations
return `Except Err`.  Go `uint64` values are `Nat`s, and every `uint64`
addition the selection loop performs — the running total and the
`targetAmount + feeDeduct` bound — is reduced modulo `2 ^ 64`, so the
loop wraps exactly where the source does.

External collaborators (the avalanchego library) are modelled at the
interface level described by the specification:

* the CB58 checksum encoder (`formatting.EncodeWithChecksum` /
  `formatting.Decode`) is embedded concretely as base-58 over a
  checksum-extended payload; the 4-byte integrity digest itself is kept
  as an explicit function parameter `cs`, so every theorem below holds
  for the real SHA-256-based digest as a particular instance;
* the secp256k1 key factory (`ToPrivateKey`) accepts exactly 32-byte
  strings and exposes the bytes unchanged;
* the keychain's per-output spend attempt (`keyChain.Spend`) is an
  explicit function parameter of the selection loop, returning either a
  spendable amount or an error;
* address derivation (`formatting.FormatAddress`) is total and
  deterministic; no claim depends on the value of an address.
-/

deriving instance DecidableEq for Except

namespace Key

/-- Error values of the embedded code.  The first five mirror the named
errors of the source; the remaining constructors stand for the distinct
error values produced by the external collaborators (CB58 decoding, the
hex codec, the key factory). -/
inductive Err where
  | invalidType
  | invalidPrivateKey
  | invalidPrivateKeyLen
  | invalidPrivateKeyEnding
  | invalidPrivateKeyEncoding
  | cb58BadChar
  | cb58MissingChecksum
  | cb58BadChecksum
  | cb58TooLarge
  | hexBadByte
  | hexOddLen
  | keyBytesBadLen
deriving DecidableEq, Repr

/-- Alphabet of the base-58 encoding used by CB58 (the bitcoin alphabet:
no `0`, `O`, `I`, `l`). -/
def b58Alphabet : List Char :=
  ['1', '2', '3', '4', '5', '6', '7', '8', '9',
   'A', 'B', 'C', 'D', 'E', 'F', 'G', 'H', 'J', 'K', 'L', 'M', 'N',
   'P', 'Q', 'R', 'S', 'T', 'U', 'V', 'W', 'X', 'Y', 'Z',
   'a', 'b', 'c', 'd', 'e', 'f', 'g', 'h', 'i', 'j', 'k', 'm', 'n',
   'o', 'p', 'q', 'r', 's', 't', 'u', 'v', 'w', 'x', 'y', 'z']

/-- Character for a base-58 digit. -/
def b58Char (d : Nat) : Char := b58Alphabet.getD d '1'

/-- Index of a character in a list of characters (first occurrence). -/
def idxOf? (c : Char) : List Char → Option Nat
  | [] => none
  | a :: rest => if a = c then some 0 else (idxOf? c rest).map (· + 1)

/-- Digit value of a base-58 character, `none` when the character is
outside the alphabet. -/
def b58DigitOf (c : Char) : Option Nat := idxOf? c b58Alphabet

/-- Digit values of a string, `none` as soon as one character is outside
the alphabet. -/
def b58Digits : List Char → Option (List Nat)
  | [] => some []
  | c :: rest =>
    match b58DigitOf c, b58Digits rest with
    | some d, some ds => some (d :: ds)
    | _, _ => none

/-- Value of a big-endian digit string in the given base (the
accumulator loop both the base-58 decoder and the byte-to-integer
conversion use). -/
def valNat (base : Nat) (ds : List Nat) : Nat :=
  ds.foldl (fun a d => a * base + d) 0

/-- Big-endian digits of `n` in the given base (empty for `0`). -/
def natBE (base n : Nat) : List Nat := (Nat.digits base n).reverse

/-- Splits a leading run of zeros off a digit string, returning its
length and the remainder. -/
def stripZeros : List Nat → Nat × List Nat
  | [] => (0, [])
  | 0 :: rest => let (z, r) := stripZeros rest; (z + 1, r)
  | d :: rest => (0, d :: rest)

/-- Base-58 encoding of a byte string: one `'1'` per leading zero byte,
then the base-58 digits of the big-endian value of the bytes. -/
def b58Encode (b : List Nat) : List Char :=
  List.replicate (stripZeros b).1 '1' ++ (natBE 58 (valNat 256 b)).map b58Char

/-- Base-58 decoding: fails on a character outside the alphabet,
otherwise one zero byte per leading `'1'` followed by the big-endian
bytes of the value of the digits. -/
def b58Decode (s : List Char) : Except Err (List Nat) :=
  match b58Digits s with
  | none => .error .cb58BadChar
  | some ds => .ok (List.replicate (stripZeros ds).1 0 ++ natBE 256 (valNat 58 ds))

/-- Embedding of `formatting.EncodeWithChecksum (CB58, b)`: appends the
4-byte digest `cs b` and base-58 encodes; rejects oversized payloads.
The digest function `cs` is a parameter (see the file comment). -/
def encodeWithChecksum (cs : List Nat → List Nat) (b : List Nat) : Except Err (List Char) :=
  if 255 < b.length then .error .cb58TooLarge
  else .ok (b58Encode (b ++ cs b))

/-- Embedding of `formatting.Decode (CB58, s)`: base-58 decodes, splits
the 4-byte digest off the tail and verifies it. -/
def decodeWithChecksum (cs : List Nat → List Nat) (s : List Char) : Except Err (List Nat) :=
  match b58Decode s with
  | .error e => .error e
  | .ok bytes =>
    if bytes.length < 4 then .error .cb58MissingChecksum
    else
      let payload := bytes.take (bytes.length - 4)
      if cs payload = bytes.drop (bytes.length - 4) then .ok payload
      else .error .cb58BadChecksum

/-- Embedding of `crypto.FactorySECP256K1R.ToPrivateKey`: the external
key factory accepts exactly 32-byte strings (a private key is a 32-byte
secret scalar, spec §3) and the resulting key exposes those bytes
unchanged through `Bytes()`. -/
def toPrivateKey (b : List Nat) : Except Err (List Nat) :=
  if b.length = 32 then .ok b else .error .keyBytesBadLen

/-- Fixed textual key prefix, the Go constant `privKeyEncPfx`. -/
def privKeyEncPfx : List Char :=
  ['P', 'r', 'i', 'v', 'a', 't', 'e', 'K', 'e', 'y', '-']

/-- Size of the raw-hex key file payload, the Go constant `privKeySize`. -/
def privKeySize : Nat := 64

/-- Embedding of `strings.Replace s pat "" 1`: removes the first
occurrence of `pat` (scanning from the left) and leaves the string
unchanged when `pat` does not occur. -/
def replaceFirst (s pat : List Char) : List Char :=
  match s with
  | [] => []
  | c :: rest =>
    if pat.isPrefixOf (c :: rest) then (c :: rest).drop pat.length
    else c :: replaceFirst rest pat

/-- Embedding of `encodePrivateKey`: CB58-encode the raw key bytes with
checksum and prepend the fixed prefix. -/
def encodePrivateKey (cs : List Nat → List Nat) (pk : List Nat) : Except Err (List Char) :=
  match encodeWithChecksum cs pk with
  | .error e => .error e
  | .ok enc => .ok (privKeyEncPfx ++ enc)

/-- Embedding of `decodePrivateKey`: removes the first occurrence of the
prefix, CB58-decodes the remainder with checksum verification, and runs
the key factory on the payload. -/
def decodePrivateKey (cs : List Nat → List Nat) (enc : List Char) : Except Err (List Nat) :=
  match decodeWithChecksum cs (replaceFirst enc privKeyEncPfx) with
  | .error e => .error e
  | .ok skBytes => toPrivateKey skBytes

/-- Embedding of `getHRP`, with the avalanchego network constants
`LocalID = 12345`, `FujiID = 5`, `MainnetID = 1` inlined. -/
def getHRP (networkID : Nat) : String :=
  if networkID = 12345 then "local"
  else if networkID = 5 then "fuji"
  else if networkID = 1 then "avax"
  else "custom"

/-- Model of the external public-key/address hash derivation
(`privKey.PublicKey().Address().Bytes()`).  Deterministic and total
(spec §4.2); no claim depends on its value. -/
def publicKeyAddressBytes (pk : List Nat) : List Nat := pk

/-- Model of the external `formatting.FormatAddress`: deterministic and
total on correctly sized inputs (spec §4.2); no claim depends on its
value. -/
def formatAddress (chainID hrp : String) (b : List Nat) : String :=
  chainID ++ "-" ++ hrp ++ toString b.length

/-- The manager state built by `New` (the Go struct `smanager`; the
keychain field is represented by the raw key it is built from). -/
structure SManager where
  hrp : String
  privKeyRaw : List Nat
  privKeyEncoded : List Char
  pAddr : String
deriving DecidableEq, Repr

/-- Option record accumulated by `applyOpts` (the Go struct `Op`):
`privKey` is set by `WithPrivateKey`, `privKeyEncoded` by
`WithPrivateKeyEncoded` (empty when absent), and the selection
parameters by `WithTime` / `WithTargetAmount` / `WithFeeDeduct`. -/
structure Op where
  privKey : Option (List Nat)
  privKeyEncoded : List Char
  time : Nat
  targetAmount : Nat
  feeDeduct : Nat
deriving DecidableEq, Repr

/-- Embedding of `New`.  `cs` is the CB58 digest function and `fresh`
the key the external generator would hand back in the generate-a-new-key
branch (`keyFactory.NewPrivateKey`).  Follows the source order: decode a
supplied encoded key and compare with a supplied raw key, generate when
neither is present, re-encode, check the re-encoding against the
supplied string, then derive HRP and address. -/
def New (cs : List Nat → List Nat) (fresh : List Nat) (networkID : Nat) (op : Op) :
    Except Err SManager :=
  let step1 : Except Err (Option (List Nat)) :=
    if op.privKeyEncoded ≠ [] then
      match decodePrivateKey cs op.privKeyEncoded with
      | .error e => .error e
      | .ok k =>
        match op.privKey with
        | some k0 => if k0 ≠ k then .error .invalidPrivateKey else .ok (some k)
        | none => .ok (some k)
    else .ok op.privKey
  match step1 with
  | .error e => .error e
  | .ok key0 =>
    let privKey := key0.getD fresh
    match encodePrivateKey cs privKey with
    | .error e => .error e
    | .ok privKeyEncoded =>
      if op.privKeyEncoded ≠ [] ∧ op.privKeyEncoded ≠ privKeyEncoded then
        .error .invalidPrivateKeyEncoding
      else
        let hrp := getHRP networkID
        .ok { hrp := hrp
              privKeyRaw := privKey
              privKeyEncoded := privKeyEncoded
              pAddr := formatAddress "P" hrp (publicKeyAddressBytes privKey) }

/-- Embedding of `readASCII`: reads bytes until the buffer (first
argument, byte count) is full, end of input is reached, or a byte below
`'!'` is read; such a byte is consumed but not stored.  Returns the
bytes stored and the unconsumed remainder of the input. -/
def readASCII : Nat → List Char → List Char × List Char
  | 0, s => ([], s)
  | _ + 1, [] => ([], [])
  | n + 1, c :: rest =>
    if c < '!' then ([], rest)
    else
      let (buf, left) := readASCII n rest
      (c :: buf, left)

/-- Embedding of `checkKeyFileEnd` (with `fileEndLimit = 1`): accepts
end of input; rejects a byte other than `'\n'`/`'\r'` with
`invalidPrivateKeyEnding`; rejects a third newline byte with
`invalidPrivateKeyLen`. -/
def checkKeyFileEnd : Nat → List Char → Except Err Unit
  | _, [] => .ok ()
  | idx, c :: rest =>
    if c ≠ '\n' ∧ c ≠ '\r' then .error .invalidPrivateKeyEnding
    else if 1 < idx then .error .invalidPrivateKeyLen
    else checkKeyFileEnd (idx + 1) rest

/-- Value of an ASCII hex digit (both cases), the Go `fromHexChar`. -/
def hexDigit (c : Char) : Option Nat :=
  if '0' ≤ c ∧ c ≤ '9' then some (c.toNat - '0'.toNat)
  else if 'a' ≤ c ∧ c ≤ 'f' then some (c.toNat - 'a'.toNat + 10)
  else if 'A' ≤ c ∧ c ≤ 'F' then some (c.toNat - 'A'.toNat + 10)
  else none

/-- Embedding of `hex.DecodeString`: consumes characters in pairs,
failing on a non-hex character, and fails on odd length. -/
def hexDecode : List Char → Except Err (List Nat)
  | [] => .ok []
  | [_] => .error .hexOddLen
  | c1 :: c2 :: rest =>
    match hexDigit c1, hexDigit c2 with
    | some hi, some lo =>
      match hexDecode rest with
      | .error e => .error e
      | .ok bs => .ok ((hi * 16 + lo) :: bs)
    | _, _ => .error .hexBadByte

/-- Embedding of `Load` on file contents `content` (the file read itself
is outside the core): first tries to construct from the contents as an
encoded key string; on failure scans 64 printable bytes, validates the
file ending, hex-decodes, runs the key factory and constructs from the
raw key. -/
def Load (cs : List Nat → List Nat) (fresh : List Nat) (networkID : Nat)
    (content : List Char) : Except Err SManager :=
  match New cs fresh networkID
      { privKey := none, privKeyEncoded := content,
        time := 0, targetAmount := 0, feeDeduct := 0 } with
  | .ok m => .ok m
  | .error _ =>
    let (buf, rest) := readASCII privKeySize content
    if buf.length ≠ privKeySize then .error .invalidPrivateKeyLen
    else
      match checkKeyFileEnd 0 rest with
      | .error e => .error e
      | .ok _ =>
        match hexDecode buf with
        | .error e => .error e
        | .ok skBytes =>
          match toPrivateKey skBytes with
          | .error e => .error e
          | .ok pk =>
            New cs fresh networkID
              { privKey := some pk, privKeyEncoded := [],
                time := 0, targetAmount := 0, feeDeduct := 0 }

/-- Identifier of a UTXO: transaction id (32 bytes in practice) and
output index (`avax.UTXOID`). -/
structure UTXOID where
  txID : List Nat
  outputIndex : Nat
deriving DecidableEq, Repr

/-- Candidate output (`avax.UTXO`): identifier, asset identifier, and an
opaque output descriptor of type `σ` handed to the spend attempt. -/
structure UTXO (σ : Type) where
  utxoID : UTXOID
  assetID : Nat
  out : σ

/-- Selected input (`avax.TransferableInput`): the source UTXO's
identifier and asset, plus the produced inner input, represented by the
amount it carries (`input.Amount()`). -/
structure TransferableInput where
  utxoID : UTXOID
  assetID : Nat
  inAmount : Nat
deriving DecidableEq, Repr

/-- Input built from a UTXO and the amount its spend attempt returned
(the literal `avax.TransferableInput{UTXOID:…, Asset:…, In:…}`). -/
def mkInput {σ : Type} (u : UTXO σ) (amt : Nat) : TransferableInput :=
  { utxoID := u.utxoID, assetID := u.assetID, inAmount := amt }

/-- Three-way lexicographic comparison of byte strings, the external
`bytes.Compare`. -/
def bytesCmp : List Nat → List Nat → Ordering
  | [], [] => .eq
  | [], _ :: _ => .lt
  | _ :: _, [] => .gt
  | a :: as, b :: bs =>
    if a < b then .lt else if b < a then .gt else bytesCmp as bs

/-- Non-strict form of the ordering used by the external
`avax.SortTransferableInputs`: transaction id first (byte-wise), output
index second. -/
def tiLeB (x y : TransferableInput) : Bool :=
  match bytesCmp x.utxoID.txID y.utxoID.txID with
  | .lt => true
  | .eq => x.utxoID.outputIndex ≤ y.utxoID.outputIndex
  | .gt => false

/-- Canonical input order as a proposition. -/
def tiLe (x y : TransferableInput) : Prop := tiLeB x y = true

instance : DecidableRel tiLe := fun x y =>
  inferInstanceAs (Decidable (tiLeB x y = true))

/-- Embedding of `avax.SortTransferableInputs`: sorts by transaction id,
then output index. -/
def sortInputs (l : List TransferableInput) : List TransferableInput :=
  List.insertionSort tiLe l

/-- Modulus of the Go `uint64` type: additions of the selection loop
wrap at this bound. -/
def two64 : Nat := 2 ^ 64

/-- Loop body of `Spends` (source lines 187–203): skip a UTXO whose
spend attempt fails; otherwise add the amount to the 64-bit running
total (`totalBalanceToSpend += input.Amount()`, wrapping on overflow),
append the input, and stop as soon as the running total strictly
exceeds the 64-bit sum `targetAmount + feeDeduct` while the target is
positive. -/
def spendsLoop {σ : Type} (sf : σ → Nat → Except Err Nat) (time target fee : Nat) :
    List (UTXO σ) → Nat → List TransferableInput → Nat × List TransferableInput
  | [], total, acc => (total, acc)
  | u :: rest, total, acc =>
    match sf u.out time with
    | .error _ => spendsLoop sf time target fee rest total acc
    | .ok amt =>
      let total2 := (total + amt) % two64
      let acc2 := acc ++ [mkInput u amt]
      if 0 < target ∧ (target + fee) % two64 < total2 then (total2, acc2)
      else spendsLoop sf time target fee rest total2 acc2

/-- Embedding of `smanager.Spends`: runs the selection loop from a zero
total and an empty list, then sorts the chosen inputs canonically.  The
per-output spend attempt `sf` stands for `m.spend` (that is, for the
external `keyChain.Spend` wrapped by it), returning the spendable amount
on success. -/
def Spends {σ : Type} (sf : σ → Nat → Except Err Nat) (outputs : List (UTXO σ))
    (op : Op) : Nat × List TransferableInput :=
  let r := spendsLoop sf op.time op.targetAmount op.feeDeduct outputs 0 []
  (r.1, sortInputs r.2)

/-- Inputs produced from the spendable elements of a candidate list, in
candidate order (the reference the selection theorems compare against). -/
def selInputs {σ : Type} (sf : σ → Nat → Except Err Nat) (time : Nat)
    (outs : List (UTXO σ)) : List TransferableInput :=
  outs.filterMap fun u =>
    match sf u.out time with
    | .ok amt => some (mkInput u amt)
    | .error _ => none

/-- Mathematical (unbounded) sum of a list of inputs' amounts. -/
def sumAmounts (l : List TransferableInput) : Nat :=
  (l.map TransferableInput.inAmount).sum

/-- The 64-bit accumulation the loop performs: fold the inputs' amounts
onto a running total, wrapping at `two64` after each addition. -/
def addAmounts (total : Nat) (l : List TransferableInput) : Nat :=
  l.foldl (fun a x => (a + x.inAmount) % two64) total

/-- The 64-bit total of a full sweep over a candidate list: the loop's
accumulator after adding every spendable amount, starting from zero. -/
def selTotal {σ : Type} (sf : σ → Nat → Except Err Nat) (time : Nat)
    (outs : List (UTXO σ)) : Nat :=
  addAmounts 0 (selInputs sf time outs)

/-! Concrete instances used by the witness statements. -/

/-- Concrete 4-byte digest function instantiating the checksum
parameter in witnesses. -/
def cs0 : List Nat → List Nat := fun _ => [1, 2, 3, 4]

/-- Concrete key handed to the generator parameter in witnesses. -/
def fresh0 : List Nat := List.replicate 32 0

/-- Concrete 32-byte key. -/
def pkA : List Nat := List.replicate 32 7

/-- Another concrete 32-byte key, distinct from `pkA`. -/
def pkB : List Nat := List.replicate 32 9

/-- Concrete spend attempt used by the selection witnesses: an output is
its own amount, and amount `0` marks a non-spendable output. -/
def exSpendFn : Nat → Nat → Except Err Nat :=
  fun amt _ => if amt = 0 then .error .invalidType else .ok amt

/-- Concrete UTXO with a one-byte transaction id. -/
def exUTXO (i amt : Nat) : UTXO Nat :=
  { utxoID := { txID := [i], outputIndex := 0 }, assetID := 7, out := amt }

/-- Selection options with a target amount and no fee. -/
def exOp (target : Nat) : Op :=
  { privKey := none, privKeyEncoded := [], time := 0, targetAmount := target, feeDeduct := 0 }

/-! Numeric helper lemmas for the base-58 codec. -/

theorem foldl_mul_add (b : Nat) :
    ∀ (L : List Nat) (a : Nat),
      L.foldl (fun x d => x * b + d) a = a * b ^ L.length + Nat.ofDigits b L.reverse
  | [], a => by simp
  | d :: t, a => by
    have ih := foldl_mul_add b t (a * b + d)
    simp only [List.foldl_cons] at ih ⊢
    rw [ih, List.reverse_cons, Nat.ofDigits_append, List.length_cons, List.length_reverse]
    simp [Nat.ofDigits_cons, pow_succ]
    ring

theorem valNat_eq_ofDigits (b : Nat) (L : List Nat) :
    valNat b L = Nat.ofDigits b L.reverse := by
  have h := foldl_mul_add b L 0
  simpa [valNat] using h

theorem ofDigits_replicate_zero (b : Nat) : ∀ z, Nat.ofDigits b (List.replicate z 0) = 0
  | 0 => rfl
  | z + 1 => by
    rw [List.replicate_succ, Nat.ofDigits_cons, ofDigits_replicate_zero b z]
    simp

theorem valNat_replicate_zero_append (b : Nat) (z : Nat) (t : List Nat) :
    valNat b (List.replicate z 0 ++ t) = valNat b t := by
  rw [valNat_eq_ofDigits, valNat_eq_ofDigits, List.reverse_append, List.reverse_replicate,
    Nat.ofDigits_append, ofDigits_replicate_zero]
  simp

theorem valNat_natBE (b n : Nat) : valNat b (natBE b n) = n := by
  rw [valNat_eq_ofDigits, natBE, List.reverse_reverse, Nat.ofDigits_digits]

theorem valNat_cons_ge (base : Nat) (d : Nat) (t : List Nat) :
    d * base ^ t.length ≤ valNat base (d :: t) := by
  rw [valNat_eq_ofDigits, List.reverse_cons, Nat.ofDigits_append]
  simp only [List.length_reverse, Nat.ofDigits_singleton]
  rw [Nat.mul_comm]
  exact Nat.le_add_left _ _

theorem stripZeros_append_eq : ∀ l : List Nat,
    List.replicate (stripZeros l).1 0 ++ (stripZeros l).2 = l
  | [] => rfl
  | 0 :: rest => by
    have ih := stripZeros_append_eq rest
    simp only [stripZeros]
    cases h : stripZeros rest with
    | mk z r =>
      rw [h] at ih
      simpa [List.replicate_succ] using ih
  | (d + 1) :: rest => by simp [stripZeros]

theorem stripZeros_head_ne_zero : ∀ (l : List Nat) (d : Nat) (t : List Nat),
    (stripZeros l).2 = d :: t → d ≠ 0
  | [], d, t => by simp [stripZeros]
  | 0 :: rest, d, t => by
    intro h
    have ih := stripZeros_head_ne_zero rest d t
    simp only [stripZeros] at h
    cases hs : stripZeros rest with
    | mk z r =>
      rw [hs] at h
      exact ih (by rw [hs]; simpa using h)
  | (e + 1) :: rest, d, t => by
    intro h
    simp only [stripZeros] at h
    injection h with h1 h2
    omega

theorem stripZeros_replicate (z : Nat) : stripZeros (List.replicate z 0) = (z, []) := by
  induction z with
  | zero => rfl
  | succ n ih => simp [List.replicate_succ, stripZeros, ih]

theorem stripZeros_replicate_cons (z d : Nat) (t : List Nat) (hd : d ≠ 0) :
    stripZeros (List.replicate z 0 ++ d :: t) = (z, d :: t) := by
  induction z with
  | zero =>
    cases d with
    | zero => exact absurd rfl hd
    | succ e => simp [stripZeros]
  | succ n ih => simp [List.replicate_succ, stripZeros, ih]

/-! Alphabet lemmas. -/

theorem b58DigitOf_b58Char : ∀ d < 58, b58DigitOf (b58Char d) = some d := by decide

theorem b58Char_mem_alphabet : ∀ d < 58, b58Char d ∈ b58Alphabet := by decide

theorem b58Digits_append : ∀ s t : List Char,
    b58Digits (s ++ t) =
      match b58Digits s, b58Digits t with
      | some ds, some es => some (ds ++ es)
      | _, _ => none
  | [], t => by cases h : b58Digits t <;> simp [b58Digits, h]
  | c :: s, t => by
    have ih := b58Digits_append s t
    cases hc : b58DigitOf c <;> cases hs : b58Digits s <;> cases ht : b58Digits t <;>
      rw [hs, ht] at ih <;> simp [b58Digits, hc, ih, hs, ht]

theorem b58Digits_replicate_one (z : Nat) :
    b58Digits (List.replicate z '1') = some (List.replicate z 0) := by
  induction z with
  | zero => rfl
  | succ n ih =>
    have h1 : b58DigitOf '1' = some 0 := by decide
    simp [List.replicate_succ, b58Digits, ih, h1]

theorem b58Digits_map_b58Char (l : List Nat) (hl : ∀ d ∈ l, d < 58) :
    b58Digits (l.map b58Char) = some l := by
  induction l with
  | nil => rfl
  | cons d t ih =>
    have hd := b58DigitOf_b58Char d (hl d (List.mem_cons_self d t))
    simp [b58Digits, hd, ih fun e he => hl e (List.mem_cons_of_mem d he)]

theorem natBE_lt_base (b n : Nat) (hb : 1 < b) : ∀ d ∈ natBE b n, d < b := by
  intro d hd
  exact Nat.digits_lt_base hb (List.mem_reverse.mp hd)

theorem natBE_head_ne_zero (b n : Nat) (d : Nat) (t : List Nat)
    (h : natBE b n = d :: t) : d ≠ 0 := by
  have hd : Nat.digits b n = t.reverse ++ [d] := by
    have := congrArg List.reverse h
    simpa [natBE] using this
  have hNz : n ≠ 0 := by
    intro h0
    rw [h0] at hd
    simp at hd
  have hlast := Nat.getLast_digit_ne_zero b hNz
  have h2 : (Nat.digits b n).getLast? = some d := by
    rw [hd]
    exact List.getLast?_concat _
  rw [List.getLast?_eq_getLast_of_ne_nil (Nat.digits_ne_nil_iff_ne_zero.mpr hNz)] at h2
  intro hd0
  apply hlast
  rw [Option.some_inj.mp h2, hd0]

theorem natBE_bytes_of_stripped (base : Nat) (hb : 1 < base) (r : List Nat)
    (hr : ∀ x ∈ r, x < base) (hh : ∀ d t, r = d :: t → d ≠ 0) :
    natBE base (valNat base r) = r := by
  cases r with
  | nil => simp [valNat, natBE]
  | cons d t =>
    rw [valNat_eq_ofDigits, natBE, Nat.digits_ofDigits base hb _
      (fun l hl => hr l (List.mem_reverse.mp hl))
      (fun h => by
        rw [List.getLast_reverse h]
        exact hh d t rfl)]
    simp

/-- Round trip of the plain base-58 layer on byte strings. -/
theorem b58Decode_b58Encode (b : List Nat) (hb : ∀ x ∈ b, x < 256) :
    b58Decode (b58Encode b) = .ok b := by
  obtain ⟨z, r, hzr⟩ : ∃ z r, stripZeros b = (z, r) := ⟨_, _, rfl⟩
  have hsplit : List.replicate z 0 ++ r = b := by
    have := stripZeros_append_eq b
    rw [hzr] at this
    exact this
  have hval : valNat 256 b = valNat 256 r := by
    rw [← hsplit, valNat_replicate_zero_append]
  have hrd : ∀ d t, r = d :: t → d ≠ 0 := fun d t hdt =>
    stripZeros_head_ne_zero b d t (by rw [hzr, hdt])
  have hrb : ∀ x ∈ r, x < 256 := fun x hx =>
    hb x (by rw [← hsplit]; exact List.mem_append_right _ hx)
  have hbytes : natBE 256 (valNat 256 b) = r := by
    rw [hval]
    exact natBE_bytes_of_stripped 256 (by norm_num) r hrb hrd
  set n := valNat 256 b with hn
  have hdig : b58Digits (b58Encode b) = some (List.replicate z 0 ++ natBE 58 n) := by
    rw [b58Encode, hzr, b58Digits_append, b58Digits_replicate_one,
      b58Digits_map_b58Char _ (natBE_lt_base 58 n (by norm_num))]
  have hstrip : stripZeros (List.replicate z 0 ++ natBE 58 n) = (z, natBE 58 n) := by
    cases hbe : natBE 58 n with
    | nil => simpa [hbe] using stripZeros_replicate z
    | cons d t =>
      exact hbe ▸ stripZeros_replicate_cons z d t (natBE_head_ne_zero 58 n d t hbe)
  rw [b58Decode, hdig]
  simp only [hstrip]
  rw [valNat_replicate_zero_append, valNat_natBE, hbytes, hsplit]

/-! Checksum-layer and codec round-trip lemmas. -/

/-- Round trip of the CB58 checksum layer: decoding an encoding of a
payload with any digest of the right length returns the payload. -/
theorem decodeWithChecksum_encode (cs : List Nat → List Nat) (p : List Nat)
    (hcsLen : (cs p).length = 4) (hp : ∀ x ∈ p, x < 256) (hcsB : ∀ x ∈ cs p, x < 256) :
    decodeWithChecksum cs (b58Encode (p ++ cs p)) = .ok p := by
  have hall : ∀ x ∈ p ++ cs p, x < 256 := by
    intro x hx
    rcases List.mem_append.mp hx with h | h
    · exact hp x h
    · exact hcsB x h
  have hrt := b58Decode_b58Encode (p ++ cs p) hall
  have hlen : (p ++ cs p).length = p.length + 4 := by simp [hcsLen]
  have hnlt : ¬ (p ++ cs p).length < 4 := by omega
  have hsub : (p ++ cs p).length - 4 = p.length := by omega
  simp only [decodeWithChecksum, hrt]
  rw [if_neg hnlt]
  rw [hsub, List.take_left, List.drop_left, if_pos rfl]

theorem replaceFirst_prefix (t : List Char) :
    replaceFirst (privKeyEncPfx ++ t) privKeyEncPfx = t := by
  have hpre : privKeyEncPfx.isPrefixOf (privKeyEncPfx ++ t) = true := by
    rw [List.isPrefixOf_iff_prefix]
    exact List.prefix_append _ _
  rw [show privKeyEncPfx ++ t = 'P' :: (privKeyEncPfx.tail ++ t) from rfl] at hpre ⊢
  rw [replaceFirst, if_pos hpre]
  exact List.drop_left _ _

theorem replaceFirst_eq_self (s pat : List Char)
    (h : ∀ i, ¬ pat.isPrefixOf (s.drop i) = true) : replaceFirst s pat = s := by
  induction s with
  | nil => rfl
  | cons c rest ih =>
    have h0 := h 0
    rw [List.drop_zero] at h0
    rw [replaceFirst, if_neg h0, ih fun i => h (i + 1)]

theorem dash_mem_privKeyEncPfx : '-' ∈ privKeyEncPfx := by decide

theorem replaceFirst_eq_self_of_no_dash (s : List Char) (h : '-' ∉ s) :
    replaceFirst s privKeyEncPfx = s := by
  apply replaceFirst_eq_self
  intro i hpre
  rw [List.isPrefixOf_iff_prefix] at hpre
  exact h (List.drop_subset i s (hpre.subset dash_mem_privKeyEncPfx))

theorem b58Encode_subset_alphabet (b : List Nat) :
    ∀ c ∈ b58Encode b, c ∈ b58Alphabet := by
  intro c hc
  rcases List.mem_append.mp hc with h | h
  · rw [List.eq_of_mem_replicate h]
    decide
  · obtain ⟨d, hd, rfl⟩ := List.mem_map.mp h
    exact b58Char_mem_alphabet d (natBE_lt_base 58 _ (by norm_num) d hd)

theorem dash_not_mem_b58Encode (b : List Nat) : '-' ∉ b58Encode b := by
  intro h
  have := b58Encode_subset_alphabet b '-' h
  revert this
  decide

/-- Canonical encoding of a valid 32-byte key always succeeds and
produces the prefixed base-58 string. -/
theorem encodePrivateKey_ok (cs : List Nat → List Nat) (pk : List Nat)
    (hpk : pk.length = 32) :
    encodePrivateKey cs pk = .ok (privKeyEncPfx ++ b58Encode (pk ++ cs pk)) := by
  rw [encodePrivateKey, encodeWithChecksum, if_neg (by omega)]

/-- Round trip of the full private-key codec on the prefixed form. -/
theorem decodePrivateKey_encode (cs : List Nat → List Nat) (pk : List Nat)
    (hcsLen : (cs pk).length = 4) (hpk : pk.length = 32)
    (hpkB : ∀ x ∈ pk, x < 256) (hcsB : ∀ x ∈ cs pk, x < 256) :
    decodePrivateKey cs (privKeyEncPfx ++ b58Encode (pk ++ cs pk)) = .ok pk := by
  rw [decodePrivateKey, replaceFirst_prefix,
    decodeWithChecksum_encode cs pk hcsLen hpkB hcsB]
  show toPrivateKey pk = .ok pk
  rw [toPrivateKey, if_pos hpk]

/-- Round trip of the full private-key codec on the bare, unprefixed
form: the prefix is not required for decoding. -/
theorem decodePrivateKey_encode_bare (cs : List Nat → List Nat) (pk : List Nat)
    (hcsLen : (cs pk).length = 4) (hpk : pk.length = 32)
    (hpkB : ∀ x ∈ pk, x < 256) (hcsB : ∀ x ∈ cs pk, x < 256) :
    decodePrivateKey cs (b58Encode (pk ++ cs pk)) = .ok pk := by
  rw [decodePrivateKey, replaceFirst_eq_self_of_no_dash _ (dash_not_mem_b58Encode _),
    decodeWithChecksum_encode cs pk hcsLen hpkB hcsB]
  show toPrivateKey pk = .ok pk
  rw [toPrivateKey, if_pos hpk]

/-! Length bounds: a string of 53 or more base-58 characters can never
decode to the 36-byte payload (32-byte key plus 4-byte digest) the key
codec requires, because 53 base-58 digits carry more information than
36 bytes. -/

theorem b58Digits_length : ∀ (s : List Char) (ds : List Nat),
    b58Digits s = some ds → ds.length = s.length
  | [], ds => by
    intro h
    simp only [b58Digits, Option.some.injEq] at h
    simp [← h]
  | c :: rest, ds => by
    intro h
    simp only [b58Digits] at h
    cases hc : b58DigitOf c <;> rw [hc] at h
    · exact absurd h (by simp)
    · cases hr : b58Digits rest <;> rw [hr] at h
      · exact absurd h (by simp)
      · cases h
        simp [b58Digits_length rest _ hr]

theorem pow_ineq_52 (z : Nat) (hz : z ≤ 35) : 256 ^ (36 - z) ≤ 58 ^ (52 - z) := by
  have hbase : (256 : Nat) ^ 36 ≤ 58 ^ 52 := by norm_num
  have h1 : 256 ^ (36 - z) * 58 ^ z ≤ 58 ^ (52 - z) * 58 ^ z := by
    calc 256 ^ (36 - z) * 58 ^ z
        ≤ 256 ^ (36 - z) * 256 ^ z := by
          exact Nat.mul_le_mul_left _ (Nat.pow_le_pow_left (by norm_num) z)
      _ = 256 ^ 36 := by rw [← pow_add]; congr 1; omega
      _ ≤ 58 ^ 52 := hbase
      _ = 58 ^ (52 - z) * 58 ^ z := by rw [← pow_add]; congr 1; omega
  exact Nat.le_of_mul_le_mul_right h1 (Nat.pos_pow_of_pos z (by norm_num))

theorem b58Decode_long_length (t : List Char) (bytes : List Nat)
    (hdec : b58Decode t = .ok bytes) (hlen : 53 ≤ t.length) : bytes.length ≠ 36 := by
  rw [b58Decode] at hdec
  cases hds : b58Digits t <;> rw [hds] at hdec
  · exact absurd hdec (by simp)
  case some ds =>
  cases hdec
  have hdsLen : ds.length = t.length := b58Digits_length t ds hds
  obtain ⟨z, r, hzr⟩ : ∃ z r, stripZeros ds = (z, r) := ⟨_, _, rfl⟩
  have hsplit : List.replicate z 0 ++ r = ds := by
    have := stripZeros_append_eq ds
    rw [hzr] at this
    exact this
  have hzrLen : z + r.length = ds.length := by
    rw [← hsplit]
    simp
  have hval : valNat 58 ds = valNat 58 r := by
    rw [← hsplit, valNat_replicate_zero_append]
  simp only [hzr, List.length_append, List.length_replicate, List.length_reverse, natBE]
  cases r with
  | nil =>
    have hz : z = ds.length := by simpa using hzrLen
    have hval0 : valNat 58 ds = 0 := by rw [hval]; rfl
    rw [hval0]
    simp only [Nat.digits_zero, List.length_nil]
    omega
  | cons d tl =>
    have hd0 : d ≠ 0 := stripZeros_head_ne_zero ds d tl (by rw [hzr])
    have hnge : 58 ^ tl.length ≤ valNat 58 (d :: tl) := by
      have := valNat_cons_ge 58 d tl
      have hd1 : 1 ≤ d := Nat.one_le_iff_ne_zero.mpr hd0
      calc 58 ^ tl.length = 1 * 58 ^ tl.length := by ring
        _ ≤ d * 58 ^ tl.length := Nat.mul_le_mul_right _ hd1
        _ ≤ valNat 58 (d :: tl) := this
    have hn0 : valNat 58 (d :: tl) ≠ 0 := by
      have : (0:Nat) < 58 ^ tl.length := Nat.pos_pow_of_pos _ (by norm_num)
      omega
    intro h36
    have hz36 : z ≤ 36 := by omega
    by_cases hz35 : z ≤ 35
    · have htl : 52 - z ≤ tl.length := by
        simp only [List.length_cons] at hzrLen
        omega
      have hlow : 256 ^ (36 - z) ≤ valNat 58 (d :: tl) :=
        le_trans (le_trans (pow_ineq_52 z hz35)
          (Nat.pow_le_pow_right (by norm_num) htl)) hnge
      have hupp : valNat 58 ds < 256 ^ (Nat.digits 256 (valNat 58 ds)).length :=
        Nat.lt_base_pow_length_digits (by norm_num)
      rw [hval] at hupp
      have hdigLen : (Nat.digits 256 (valNat 58 ds)).length = 36 - z := by omega
      rw [hval] at hdigLen
      rw [hdigLen] at hupp
      omega
    · have hz : z = 36 := by omega
      have : (Nat.digits 256 (valNat 58 ds)).length = 0 := by omega
      have hnil : Nat.digits 256 (valNat 58 ds) = [] := List.length_eq_zero.mp this
      have hvne : valNat 58 ds ≠ 0 := by rw [hval]; exact hn0
      exact absurd hnil (Nat.digits_ne_nil_iff_ne_zero.mpr hvne)

/-- On any input whose prefix-stripped form still has 53 or more
characters, the private-key decoder fails. -/
theorem decodePrivateKey_long_fails (cs : List Nat → List Nat) (enc : List Char)
    (hstrip : replaceFirst enc privKeyEncPfx = enc) (hlen : 53 ≤ enc.length) :
    ∃ e, decodePrivateKey cs enc = .error e := by
  rw [decodePrivateKey, hstrip]
  cases hdec : decodeWithChecksum cs enc with
  | error e => exact ⟨e, rfl⟩
  | ok payload =>
    rw [decodeWithChecksum] at hdec
    cases hb : b58Decode enc <;> rw [hb] at hdec <;> dsimp only at hdec ⊢
    · exact absurd hdec (by simp)
    case ok bytes =>
    have hb36 : bytes.length ≠ 36 := b58Decode_long_length enc bytes hb hlen
    by_cases h4 : bytes.length < 4
    · rw [if_pos h4] at hdec
      exact absurd hdec (by simp)
    · rw [if_neg h4] at hdec
      by_cases hck : cs (List.take (bytes.length - 4) bytes) = List.drop (bytes.length - 4) bytes
      · rw [if_pos hck] at hdec
        have hpl : payload = List.take (bytes.length - 4) bytes := by
          exact (Except.ok.injEq _ _).mp hdec.symm
        have hplen : payload.length = bytes.length - 4 := by
          rw [hpl, List.length_take]
          omega
        refine ⟨.keyBytesBadLen, ?_⟩
        rw [toPrivateKey, if_neg ?_]
        rw [hplen]
        omega
      · rw [if_neg hck] at hdec
        exact absurd hdec (by simp)

/-- With a long non-prefixed content string, the first (encoded-string)
construction attempt of `Load` always fails. -/
theorem New_encoded_long_fails (cs : List Nat → List Nat) (fresh : List Nat)
    (networkID : Nat) (content : List Char)
    (hstrip : replaceFirst content privKeyEncPfx = content) (hlen : 53 ≤ content.length) :
    ∃ e, New cs fresh networkID
      { privKey := none, privKeyEncoded := content,
        time := 0, targetAmount := 0, feeDeduct := 0 } = .error e := by
  obtain ⟨e, he⟩ := decodePrivateKey_long_fails cs content hstrip hlen
  refine ⟨e, ?_⟩
  have hne : content ≠ [] := by
    intro h
    rw [h] at hlen
    simp at hlen
  rw [New]
  simp only [hne, ne_eq, not_false_eq_true, if_true, he]

/-! File-framing helpers. -/

theorem readASCII_all_printable : ∀ (s t : List Char), (∀ c ∈ s, ¬ c < '!') →
    readASCII s.length (s ++ t) = (s, t)
  | [], t => by intro _; rfl
  | c :: rest, t => by
    intro h
    have hc := h c (List.mem_cons_self c rest)
    rw [List.length_cons, List.cons_append, readASCII, if_neg hc,
      readASCII_all_printable rest t fun x hx => h x (List.mem_cons_of_mem c hx)]

/-- When a sub-printable byte occurs before the buffer is full, the scan
stops there: it returns only the bytes before it. -/
theorem readASCII_stops_at_ctl : ∀ (s : List Char) (c : Char) (t : List Char) (n : Nat),
    (∀ x ∈ s, ¬ x < '!') → c < '!' → s.length < n →
    readASCII n (s ++ c :: t) = (s, t)
  | [], c, t, n => by
    intro _ hc hn
    cases n with
    | zero => omega
    | succ m => simp [readASCII, hc]
  | a :: rest, c, t, n => by
    intro h hc hn
    cases n with
    | zero => omega
    | succ m =>
      have ha := h a (List.mem_cons_self a rest)
      rw [List.cons_append, readASCII, if_neg ha,
        readASCII_stops_at_ctl rest c t m (fun x hx => h x (List.mem_cons_of_mem a hx)) hc
          (by simpa using Nat.lt_of_succ_lt_succ hn)]

theorem checkKeyFileEnd_newlines : ∀ (t : List Char) (idx : Nat),
    (∀ c ∈ t, c = '\n' ∨ c = '\r') → idx + t.length ≤ 2 →
    checkKeyFileEnd idx t = .ok ()
  | [], idx => by intro _ _; rfl
  | c :: rest, idx => by
    intro h hlen
    have hc := h c (List.mem_cons_self c rest)
    have hcne : ¬ (c ≠ '\n' ∧ c ≠ '\r') := by
      rcases hc with h1 | h1 <;> simp [h1]
    rw [checkKeyFileEnd, if_neg hcne, if_neg (by simp at hlen ⊢; omega)]
    exact checkKeyFileEnd_newlines rest (idx + 1)
      (fun x hx => h x (List.mem_cons_of_mem c hx)) (by simp at hlen ⊢; omega)

theorem checkKeyFileEnd_three_newlines (a b c : Char)
    (ha : a = '\n' ∨ a = '\r') (hb : b = '\n' ∨ b = '\r') (hc : c = '\n' ∨ c = '\r') :
    checkKeyFileEnd 0 [a, b, c] = .error .invalidPrivateKeyLen := by
  have hane : ¬ (a ≠ '\n' ∧ a ≠ '\r') := by rcases ha with h | h <;> simp [h]
  have hbne : ¬ (b ≠ '\n' ∧ b ≠ '\r') := by rcases hb with h | h <;> simp [h]
  have hcne : ¬ (c ≠ '\n' ∧ c ≠ '\r') := by rcases hc with h | h <;> simp [h]
  rw [checkKeyFileEnd, if_neg hane, if_neg (by omega), checkKeyFileEnd, if_neg hbne,
    if_neg (by omega), checkKeyFileEnd, if_neg hcne, if_pos (by omega)]

theorem checkKeyFileEnd_bad_byte : ∀ (nls : List Char) (x : Char) (t : List Char) (idx : Nat),
    (∀ c ∈ nls, c = '\n' ∨ c = '\r') → idx + nls.length ≤ 2 → ¬ (x = '\n' ∨ x = '\r') →
    checkKeyFileEnd idx (nls ++ x :: t) = .error .invalidPrivateKeyEnding
  | [], x, t, idx => by
    intro _ _ hx
    rw [List.nil_append, checkKeyFileEnd, if_pos (by tauto)]
  | c :: rest, x, t, idx => by
    intro h hlen hx
    have hc := h c (List.mem_cons_self c rest)
    have hcne : ¬ (c ≠ '\n' ∧ c ≠ '\r') := by rcases hc with h1 | h1 <;> simp [h1]
    rw [List.cons_append, checkKeyFileEnd, if_neg hcne, if_neg (by simp at hlen ⊢; omega)]
    exact checkKeyFileEnd_bad_byte rest x t (idx + 1)
      (fun y hy => h y (List.mem_cons_of_mem c hy)) (by simp at hlen ⊢; omega) hx

theorem hexDigit_isSome_printable (c : Char) (h : (hexDigit c).isSome = true) : ¬ c < '!' := by
  rw [hexDigit] at h
  split_ifs at h with h1 h2 h3
  · have : ('!' : Char) ≤ '0' := by decide
    exact not_lt_of_le (le_trans this h1.1)
  · have : ('!' : Char) ≤ 'a' := by decide
    exact not_lt_of_le (le_trans this h2.1)
  · have : ('!' : Char) ≤ 'A' := by decide
    exact not_lt_of_le (le_trans this h3.1)
  · simp at h

/-- Hex decoding succeeds on a string of hex characters of even length
and produces half as many bytes. -/
theorem hexDecode_ok : ∀ (l : List Char), (∀ c ∈ l, (hexDigit c).isSome = true) →
    l.length % 2 = 0 → ∃ bs, hexDecode l = .ok bs ∧ bs.length = l.length / 2
  | [] => by intro _ _; exact ⟨[], rfl, rfl⟩
  | [c] => by
    intro _ hlen
    simp at hlen
  | c1 :: c2 :: rest => by
    intro h hlen
    obtain ⟨d1, hd1⟩ := Option.isSome_iff_exists.mp (h c1 (by simp))
    obtain ⟨d2, hd2⟩ := Option.isSome_iff_exists.mp (h c2 (by simp))
    obtain ⟨bs, hbs, hbsLen⟩ := hexDecode_ok rest
      (fun c hc => h c (by simp [hc])) (by simp at hlen ⊢; omega)
    refine ⟨(d1 * 16 + d2) :: bs, ?_, ?_⟩
    · rw [hexDecode, hd1, hd2, hbs]
    · simp [hbsLen]
      omega

/-- A raw-hex key file (64 hex characters plus at most 3 trailer bytes)
cannot contain the textual key prefix, so the prefix-stripping rewrite
leaves it unchanged: any occurrence would place the prefix character
`'r'` inside the hex region. -/
theorem no_pfx_occurrence (hex64 trailer : List Char)
    (hlen : hex64.length = 64) (hhex : ∀ c ∈ hex64, (hexDigit c).isSome = true)
    (htr : trailer.length ≤ 3) :
    replaceFirst (hex64 ++ trailer) privKeyEncPfx = hex64 ++ trailer := by
  apply replaceFirst_eq_self
  intro i hpre
  rw [List.isPrefixOf_iff_prefix] at hpre
  have hlen2 : privKeyEncPfx.length ≤ ((hex64 ++ trailer).drop i).length := hpre.length_le
  obtain ⟨u, hu⟩ := hpre
  have h1 : ((hex64 ++ trailer).drop i)[1]? = some 'r' := by
    rw [← hu]
    rfl
  have h2 : (hex64 ++ trailer)[i + 1]? = some 'r' := by
    rw [← List.getElem?_drop]
    exact h1
  have hidx : i + 1 < 64 := by
    rw [List.length_drop, List.length_append, hlen] at hlen2
    have : privKeyEncPfx.length = 11 := rfl
    omega
  have h3 : hex64[i + 1]? = some 'r' := by
    rw [List.getElem?_append] at h2
    rw [if_pos (by omega)] at h2
    exact h2
  have hr : 'r' ∈ hex64 := List.getElem?_mem h3
  have := hhex 'r' hr
  revert this
  decide

/-- Construction from a raw 32-byte key and no encoded string always
succeeds and stores the key bytes and their canonical encoding. -/
theorem New_raw_ok (cs : List Nat → List Nat) (fresh : List Nat) (networkID : Nat)
    (pk : List Nat) (hpk : pk.length = 32) :
    New cs fresh networkID
      { privKey := some pk, privKeyEncoded := [],
        time := 0, targetAmount := 0, feeDeduct := 0 }
      = .ok { hrp := getHRP networkID, privKeyRaw := pk,
              privKeyEncoded := privKeyEncPfx ++ b58Encode (pk ++ cs pk),
              pAddr := formatAddress "P" (getHRP networkID) (publicKeyAddressBytes pk) } := by
  rw [New]
  simp only [ne_eq, not_true_eq_false, if_false, Option.getD_some,
    encodePrivateKey_ok cs pk hpk, not_true, false_and, if_neg]

theorem toPrivateKey_ok (b : List Nat) (h : b.length = 32) : toPrivateKey b = .ok b := by
  rw [toPrivateKey, if_pos h]

theorem Load_hex_trailer_ok (cs : List Nat → List Nat) (fresh : List Nat) (networkID : Nat)
    (hex64 trailer : List Char) (hlen : hex64.length = 64)
    (hhex : ∀ c ∈ hex64, (hexDigit c).isSome = true)
    (htr : ∀ c ∈ trailer, c = '\n' ∨ c = '\r') (htrLen : trailer.length ≤ 2) :
    ∃ m, Load cs fresh networkID (hex64 ++ trailer) = .ok m := by
  have hstrip := no_pfx_occurrence hex64 trailer hlen hhex (by omega)
  obtain ⟨e, hNew⟩ := New_encoded_long_fails cs fresh networkID _ hstrip
    (by simp only [List.length_append, hlen]; omega)
  have hprint : ∀ c ∈ hex64, ¬ c < '!' := fun c hc => hexDigit_isSome_printable c (hhex c hc)
  have hread : readASCII 64 (hex64 ++ trailer) = (hex64, trailer) := by
    rw [← hlen]
    exact readASCII_all_printable hex64 trailer hprint
  obtain ⟨bs, hbs, hbsLen⟩ := hexDecode_ok hex64 hhex (by omega)
  have hbs32 : bs.length = 32 := by omega
  have hend := checkKeyFileEnd_newlines trailer 0 htr (by omega)
  simp [Load, hNew, hread, hlen, privKeySize, hend, hbs, toPrivateKey_ok bs hbs32]
  exact ⟨_, New_raw_ok cs fresh networkID bs hbs32⟩

theorem Load_hex_three_newlines (cs : List Nat → List Nat) (fresh : List Nat)
    (networkID : Nat) (hex64 : List Char) (a b c : Char) (hlen : hex64.length = 64)
    (hhex : ∀ x ∈ hex64, (hexDigit x).isSome = true)
    (ha : a = '\n' ∨ a = '\r') (hb : b = '\n' ∨ b = '\r') (hc : c = '\n' ∨ c = '\r') :
    Load cs fresh networkID (hex64 ++ [a, b, c]) = .error .invalidPrivateKeyLen := by
  have hstrip := no_pfx_occurrence hex64 [a, b, c] hlen hhex (by simp)
  obtain ⟨e, hNew⟩ := New_encoded_long_fails cs fresh networkID _ hstrip
    (by simp only [List.length_append, hlen]; omega)
  have hprint : ∀ x ∈ hex64, ¬ x < '!' := fun x hx => hexDigit_isSome_printable x (hhex x hx)
  have hread : readASCII 64 (hex64 ++ [a, b, c]) = (hex64, [a, b, c]) := by
    rw [← hlen]
    exact readASCII_all_printable hex64 [a, b, c] hprint
  have hend := checkKeyFileEnd_three_newlines a b c ha hb hc
  simp [Load, hNew, hread, hlen, privKeySize, hend]

theorem Load_hex_bad_trailer (cs : List Nat → List Nat) (fresh : List Nat)
    (networkID : Nat) (hex64 nls : List Char) (x : Char) (t : List Char)
    (hlen : hex64.length = 64) (hhex : ∀ c ∈ hex64, (hexDigit c).isSome = true)
    (hnls : ∀ c ∈ nls, c = '\n' ∨ c = '\r') (hnlsLen : nls.length ≤ 2)
    (hx : ¬ (x = '\n' ∨ x = '\r')) (ht : nls.length + t.length ≤ 2) :
    Load cs fresh networkID (hex64 ++ nls ++ x :: t) = .error .invalidPrivateKeyEnding := by
  have hstrip := no_pfx_occurrence hex64 (nls ++ x :: t) hlen hhex (by simp; omega)
  obtain ⟨e, hNew⟩ := New_encoded_long_fails cs fresh networkID (hex64 ++ (nls ++ x :: t))
    hstrip (by simp only [List.length_append, List.length_cons, hlen]; omega)
  have hprint : ∀ c ∈ hex64, ¬ c < '!' := fun c hc => hexDigit_isSome_printable c (hhex c hc)
  have hread : readASCII 64 (hex64 ++ (nls ++ x :: t)) = (hex64, nls ++ x :: t) := by
    rw [← hlen]
    exact readASCII_all_printable hex64 (nls ++ x :: t) hprint
  have hend := checkKeyFileEnd_bad_byte nls x t 0 hnls (by omega) hx
  rw [List.append_assoc]
  simp [Load, hNew, hread, hlen, privKeySize, hend]

/-- When the encoded-string attempt fails and the first sub-printable
byte of the file occurs before 64 bytes were stored, `Load` reports
`invalidPrivateKeyLen`. -/
theorem Load_ctl_before_64 (cs : List Nat → List Nat) (fresh : List Nat) (networkID : Nat)
    (pre : List Char) (c : Char) (rest : List Char)
    (hNew : ∃ e, New cs fresh networkID
      { privKey := none, privKeyEncoded := pre ++ c :: rest,
        time := 0, targetAmount := 0, feeDeduct := 0 } = .error e)
    (hprint : ∀ x ∈ pre, ¬ x < '!') (hpre : pre.length < 64) (hc : c < '!') :
    Load cs fresh networkID (pre ++ c :: rest) = .error .invalidPrivateKeyLen := by
  obtain ⟨e, hNew⟩ := hNew
  have hread : readASCII 64 (pre ++ c :: rest) = (pre, rest) :=
    readASCII_stops_at_ctl pre c rest 64 hprint hc hpre
  simp only [Load, hNew, privKeySize, hread]
  rw [if_pos (by omega)]

/-- When the encoded-string attempt fails, the file is exactly 64
printable bytes, and hex decoding of those bytes fails, `Load` returns
the hex decoder's error unchanged. -/
theorem Load_hex_error_passthrough (cs : List Nat → List Nat) (fresh : List Nat)
    (networkID : Nat) (content : List Char) (e' : Err)
    (hNew : ∃ e, New cs fresh networkID
      { privKey := none, privKeyEncoded := content,
        time := 0, targetAmount := 0, feeDeduct := 0 } = .error e)
    (hlen : content.length = 64) (hprint : ∀ x ∈ content, ¬ x < '!')
    (hhexErr : hexDecode content = .error e') :
    Load cs fresh networkID content = .error e' := by
  obtain ⟨e, hNew⟩ := hNew
  have hread : readASCII 64 content = (content, []) := by
    have h := readASCII_all_printable content [] hprint
    rw [List.append_nil] at h
    rw [← hlen]
    exact h
  simp [Load, hNew, privKeySize, hread, hlen, hhexErr]
  rfl

theorem decodePrivateKey_nil (cs : List Nat → List Nat) :
    decodePrivateKey cs [] = .error .cb58MissingChecksum := by
  simp [decodePrivateKey, replaceFirst, decodeWithChecksum, b58Decode, b58Digits,
    stripZeros, valNat, natBE]

theorem b58Encode_ne_nil (b : List Nat) (hb : b ≠ []) : b58Encode b ≠ [] := by
  intro h
  rw [b58Encode] at h
  obtain ⟨h1, h2⟩ := List.append_eq_nil.mp h
  have hz : (stripZeros b).1 = 0 := by
    have := congrArg List.length h1
    simpa using this
  have hn : natBE 58 (valNat 256 b) = [] := List.map_eq_nil_iff.mp h2
  have hn0 : valNat 256 b = 0 := by
    have hd : Nat.digits 58 (valNat 256 b) = [] := by
      have := congrArg List.reverse hn
      simpa [natBE] using this
    by_contra hne
    exact absurd hd (Nat.digits_ne_nil_iff_ne_zero.mpr hne)
  obtain ⟨z, r, hzr⟩ : ∃ z r, stripZeros b = (z, r) := ⟨_, _, rfl⟩
  rw [hzr] at hz
  simp only at hz
  have hsplit : List.replicate z 0 ++ r = b := by
    have := stripZeros_append_eq b
    rw [hzr] at this
    exact this
  rw [hz] at hsplit
  simp only [List.replicate, List.nil_append] at hsplit
  cases r with
  | nil => exact hb hsplit.symm
  | cons d t =>
    have hd0 : d ≠ 0 := stripZeros_head_ne_zero b d t (by rw [hzr])
    have hge := valNat_cons_ge 256 d t
    rw [hsplit] at hge
    have : (0:Nat) < 256 ^ t.length := Nat.pos_pow_of_pos _ (by norm_num)
    have hd1 : 1 ≤ d := Nat.one_le_iff_ne_zero.mpr hd0
    have : 1 ≤ valNat 256 b := le_trans (by nlinarith) hge
    omega

theorem encodePrivateKey_shape (cs : List Nat → List Nat) (k : List Nat) (s : List Char)
    (h : encodePrivateKey cs k = .ok s) : ∃ t, s = privKeyEncPfx ++ t := by
  rw [encodePrivateKey] at h
  cases he : encodeWithChecksum cs k <;> rw [he] at h
  · exact absurd h (by simp)
  · exact ⟨_, ((Except.ok.injEq _ _).mp h).symm⟩

/-- Construction with both a raw key and an encoded string whose decoded
bytes differ fails with `invalidPrivateKey`. -/
theorem New_mismatch (cs : List Nat → List Nat) (fresh : List Nat) (networkID : Nat)
    (enc : List Char) (k0 k : List Nat) (tt ta fd : Nat)
    (hdec : decodePrivateKey cs enc = .ok k) (hne : k0 ≠ k) :
    New cs fresh networkID
      { privKey := some k0, privKeyEncoded := enc,
        time := tt, targetAmount := ta, feeDeduct := fd } = .error .invalidPrivateKey := by
  have hencne : enc ≠ [] := by
    intro h
    rw [h, decodePrivateKey_nil] at hdec
    exact absurd hdec (by simp)
  simp [New, hencne, hdec, hne]

/-- Construction with a raw key and its own canonical encoding
succeeds. -/
theorem New_match_ok (cs : List Nat → List Nat) (fresh : List Nat) (networkID : Nat)
    (pk : List Nat) (tt ta fd : Nat)
    (hcsLen : (cs pk).length = 4) (hpk : pk.length = 32)
    (hpkB : ∀ x ∈ pk, x < 256) (hcsB : ∀ x ∈ cs pk, x < 256) :
    New cs fresh networkID
      { privKey := some pk, privKeyEncoded := privKeyEncPfx ++ b58Encode (pk ++ cs pk),
        time := tt, targetAmount := ta, feeDeduct := fd }
      = .ok { hrp := getHRP networkID, privKeyRaw := pk,
              privKeyEncoded := privKeyEncPfx ++ b58Encode (pk ++ cs pk),
              pAddr := formatAddress "P" (getHRP networkID) (publicKeyAddressBytes pk) } := by
  have hdec := decodePrivateKey_encode cs pk hcsLen hpk hpkB hcsB
  have hne : privKeyEncPfx ++ b58Encode (pk ++ cs pk) ≠ [] := by simp [privKeyEncPfx]
  simp [New, hne, hdec, encodePrivateKey_ok cs pk hpk]

/-- Construction from a bare (unprefixed) encoded string decodes fine
but then fails the re-encoding consistency check, because the canonical
encoding always carries the prefix. -/
theorem New_unprefixed (cs : List Nat → List Nat) (fresh : List Nat) (networkID : Nat)
    (pk : List Nat) (tt ta fd : Nat)
    (hcsLen : (cs pk).length = 4) (hpk : pk.length = 32)
    (hpkB : ∀ x ∈ pk, x < 256) (hcsB : ∀ x ∈ cs pk, x < 256) :
    New cs fresh networkID
      { privKey := none, privKeyEncoded := b58Encode (pk ++ cs pk),
        time := tt, targetAmount := ta, feeDeduct := fd }
      = .error .invalidPrivateKeyEncoding := by
  have hdec := decodePrivateKey_encode_bare cs pk hcsLen hpk hpkB hcsB
  have hne : b58Encode (pk ++ cs pk) ≠ [] := by
    apply b58Encode_ne_nil
    intro h
    have := congrArg List.length h
    simp [hpk, hcsLen] at this
  have hneq : b58Encode (pk ++ cs pk) ≠ privKeyEncPfx ++ b58Encode (pk ++ cs pk) := by
    intro h
    have hl := congrArg List.length h
    rw [List.length_append] at hl
    have hplen : privKeyEncPfx.length = 11 := rfl
    omega
  simp [New, hne, hdec, encodePrivateKey_ok cs pk hpk, hneq]

/-- Every successfully constructed manager stores an encoded form that
starts with the fixed prefix. -/
theorem New_ok_prefix (cs : List Nat → List Nat) (fresh : List Nat) (networkID : Nat)
    (op : Op) (m : SManager) (h : New cs fresh networkID op = .ok m) :
    privKeyEncPfx <+: m.privKeyEncoded := by
  rw [New] at h
  split at h
  · exact absurd h (by simp)
  next key0 heq =>
    dsimp only at h
    cases he : encodePrivateKey cs (key0.getD fresh) <;> rw [he] at h
    · exact absurd h (by simp)
    next pkE =>
      obtain ⟨t, ht⟩ := encodePrivateKey_shape cs _ pkE he
      dsimp only at h
      by_cases hcond : op.privKeyEncoded ≠ [] ∧ op.privKeyEncoded ≠ pkE
      · rw [if_pos hcond] at h
        exact absurd h (by simp)
      · rw [if_neg hcond] at h
        have hm := (Except.ok.injEq _ _).mp h
        rw [← hm]
        exact ⟨t, by rw [ht]⟩

/-! Properties of the canonical input order. -/

theorem bytesCmp_eq_iff : ∀ a b : List Nat, bytesCmp a b = .eq ↔ a = b
  | [], [] => by simp [bytesCmp]
  | [], _ :: _ => by simp [bytesCmp]
  | _ :: _, [] => by simp [bytesCmp]
  | x :: xs, y :: ys => by
    rw [bytesCmp]
    by_cases h1 : x < y
    · simp [h1]
      omega
    · rw [if_neg h1]
      by_cases h2 : y < x
      · simp [h2]
        omega
      · rw [if_neg h2]
        rw [bytesCmp_eq_iff xs ys]
        have hxy : x = y := by omega
        simp [hxy]

theorem bytesCmp_swap : ∀ a b : List Nat, (bytesCmp a b).swap = bytesCmp b a
  | [], [] => rfl
  | [], _ :: _ => rfl
  | _ :: _, [] => rfl
  | x :: xs, y :: ys => by
    rw [bytesCmp, bytesCmp]
    by_cases h1 : x < y
    · rw [if_pos h1, if_neg (by omega), if_pos h1]
      rfl
    · rw [if_neg h1]
      by_cases h2 : y < x
      · rw [if_pos h2, if_pos h2]
        rfl
      · rw [if_neg h2, if_neg h1, if_neg h2]
        exact bytesCmp_swap xs ys

theorem bytesCmp_lt_trans : ∀ a b c : List Nat,
    bytesCmp a b = .lt → bytesCmp b c = .lt → bytesCmp a c = .lt
  | [], [], _ => by simp [bytesCmp]
  | [], _ :: _, [] => by simp [bytesCmp]
  | [], _ :: _, _ :: _ => by simp [bytesCmp]
  | _ :: _, [], _ => by simp [bytesCmp]
  | x :: xs, y :: ys, [] => by simp [bytesCmp]
  | x :: xs, y :: ys, z :: zs => by
    intro hab hbc
    rw [bytesCmp] at hab hbc ⊢
    by_cases h1 : x < y
    · have hyz : y < z ∨ (¬ y < z ∧ ¬ z < y) := by
        by_cases h2 : y < z
        · exact Or.inl h2
        · rw [if_neg h2] at hbc
          by_cases h3 : z < y
          · rw [if_pos h3] at hbc
            exact absurd hbc (by simp)
          · exact Or.inr ⟨h2, h3⟩
      rcases hyz with h2 | ⟨h2, h3⟩
      · rw [if_pos (by omega)]
      · rw [if_pos (by omega)]
    · rw [if_neg h1] at hab
      by_cases h2 : y < x
      · rw [if_pos h2] at hab
        exact absurd hab (by simp)
      · rw [if_neg h2] at hab
        have hxy : x = y := by omega
        subst hxy
        by_cases h3 : x < z
        · rw [if_pos h3]
        · rw [if_neg h3] at hbc ⊢
          by_cases h4 : z < x
          · rw [if_pos h4] at hbc
            exact absurd hbc (by simp)
          · rw [if_neg h4] at hbc ⊢
            exact bytesCmp_lt_trans xs ys zs hab hbc

theorem tiLe_total : ∀ x y : TransferableInput, tiLe x y ∨ tiLe y x := by
  intro x y
  unfold tiLe tiLeB
  cases hxy : bytesCmp x.utxoID.txID y.utxoID.txID with
  | lt =>
    left
    rfl
  | eq =>
    have hyx : bytesCmp y.utxoID.txID x.utxoID.txID = .eq := by
      rw [← bytesCmp_swap, hxy]
      rfl
    rw [hyx]
    rcases Nat.le_total x.utxoID.outputIndex y.utxoID.outputIndex with h | h
    · left
      simp [h]
    · right
      simp [h]
  | gt =>
    right
    have hyx : bytesCmp y.utxoID.txID x.utxoID.txID = .lt := by
      rw [← bytesCmp_swap, hxy]
      rfl
    rw [hyx]

theorem tiLe_trans : ∀ x y z : TransferableInput, tiLe x y → tiLe y z → tiLe x z := by
  intro x y z hxy hyz
  unfold tiLe tiLeB at *
  cases h1 : bytesCmp x.utxoID.txID y.utxoID.txID with
  | gt => rw [h1] at hxy; exact absurd hxy (by simp)
  | lt =>
    cases h2 : bytesCmp y.utxoID.txID z.utxoID.txID with
    | gt => rw [h2] at hyz; exact absurd hyz (by simp)
    | lt => rw [bytesCmp_lt_trans _ _ _ h1 h2]
    | eq =>
      have := (bytesCmp_eq_iff _ _).mp h2
      rw [← this, h1]
  | eq =>
    have hxyID := (bytesCmp_eq_iff _ _).mp h1
    rw [h1] at hxy
    rw [hxyID]
    cases h2 : bytesCmp y.utxoID.txID z.utxoID.txID with
    | gt => rw [h2] at hyz; exact absurd hyz (by simp)
    | lt => rfl
    | eq =>
      rw [h2] at hyz
      simp only at hxy hyz ⊢
      simp at hxy hyz ⊢
      omega

instance : IsTotal TransferableInput tiLe := ⟨tiLe_total⟩

instance : IsTrans TransferableInput tiLe := ⟨fun a b c => tiLe_trans a b c⟩

theorem sortInputs_sorted (l : List TransferableInput) : List.Sorted tiLe (sortInputs l) :=
  List.sorted_insertionSort tiLe l

theorem sortInputs_perm (l : List TransferableInput) : (sortInputs l).Perm l :=
  List.perm_insertionSort tiLe l

/-! Selection-loop lemmas. -/

theorem selInputs_nil {σ : Type} (sf : σ → Nat → Except Err Nat) (time : Nat) :
    selInputs sf time [] = [] := rfl

theorem selInputs_cons_ok {σ : Type} (sf : σ → Nat → Except Err Nat) (time : Nat)
    (u : UTXO σ) (outs : List (UTXO σ)) (amt : Nat) (h : sf u.out time = .ok amt) :
    selInputs sf time (u :: outs) = mkInput u amt :: selInputs sf time outs := by
  simp [selInputs, List.filterMap_cons, h]

theorem selInputs_cons_err {σ : Type} (sf : σ → Nat → Except Err Nat) (time : Nat)
    (u : UTXO σ) (outs : List (UTXO σ)) (e : Err) (h : sf u.out time = .error e) :
    selInputs sf time (u :: outs) = selInputs sf time outs := by
  simp [selInputs, List.filterMap_cons, h]

theorem addAmounts_nil (total : Nat) : addAmounts total [] = total := rfl

theorem addAmounts_cons (total : Nat) (x : TransferableInput) (l : List TransferableInput) :
    addAmounts total (x :: l) = addAmounts ((total + x.inAmount) % two64) l := rfl

theorem two64_pos : 0 < two64 := by
  rw [two64]
  exact Nat.pos_pow_of_pos _ (by norm_num)

/-- The per-step wrapping accumulation equals the mathematical sum
reduced once, as long as it starts below the modulus. -/
theorem addAmounts_eq_mod (l : List TransferableInput) :
    ∀ total, total < two64 → addAmounts total l = (total + sumAmounts l) % two64 := by
  induction l with
  | nil =>
    intro total h
    simp [addAmounts_nil, sumAmounts, Nat.mod_eq_of_lt h]
  | cons x t ih =>
    intro total h
    rw [addAmounts_cons, ih _ (Nat.mod_lt _ two64_pos), Nat.mod_add_mod]
    congr 1
    simp [sumAmounts]
    ring

theorem selTotal_eq_mod {σ : Type} (sf : σ → Nat → Except Err Nat) (time : Nat)
    (outs : List (UTXO σ)) :
    selTotal sf time outs = sumAmounts (selInputs sf time outs) % two64 := by
  rw [selTotal, addAmounts_eq_mod _ 0 two64_pos, Nat.zero_add]

/-- Structure of the selection loop: it processes exactly a prefix of
the candidate list, accumulating every spendable element of that prefix
into the wrapping 64-bit total. -/
theorem spendsLoop_shape {σ : Type} (sf : σ → Nat → Except Err Nat) (time target fee : Nat) :
    ∀ (outs : List (UTXO σ)) (total : Nat) (acc : List TransferableInput),
      ∃ p, p <+: outs ∧
        spendsLoop sf time target fee outs total acc
          = (addAmounts total (selInputs sf time p), acc ++ selInputs sf time p)
  | [], total, acc =>
    ⟨[], List.prefix_refl _, by simp [spendsLoop, addAmounts_nil, selInputs_nil]⟩
  | u :: rest, total, acc => by
    cases hsf : sf u.out time with
    | error e =>
      obtain ⟨p, hp, heq⟩ := spendsLoop_shape sf time target fee rest total acc
      obtain ⟨t2, ht2⟩ := hp
      refine ⟨u :: p, ⟨t2, by rw [List.cons_append, ht2]⟩, ?_⟩
      simp only [spendsLoop, hsf]
      rw [heq, selInputs_cons_err sf time u p e hsf]
    | ok amt =>
      by_cases hbr : 0 < target ∧ (target + fee) % two64 < (total + amt) % two64
      · refine ⟨[u], ⟨rest, rfl⟩, ?_⟩
        simp only [spendsLoop, hsf]
        rw [if_pos hbr]
        rw [selInputs_cons_ok sf time u [] amt hsf]
        simp [addAmounts_cons, addAmounts_nil, selInputs_nil, mkInput]
      · obtain ⟨p, hp, heq⟩ := spendsLoop_shape sf time target fee rest
          ((total + amt) % two64) (acc ++ [mkInput u amt])
        obtain ⟨t2, ht2⟩ := hp
        refine ⟨u :: p, ⟨t2, by rw [List.cons_append, ht2]⟩, ?_⟩
        simp only [spendsLoop, hsf]
        rw [if_neg hbr]
        rw [heq, selInputs_cons_ok sf time u p amt hsf]
        simp [addAmounts_cons, mkInput, List.append_assoc]

/-- With a zero target amount, the loop never breaks: it processes the
whole candidate list. -/
theorem spendsLoop_sweep {σ : Type} (sf : σ → Nat → Except Err Nat) (time fee : Nat) :
    ∀ (outs : List (UTXO σ)) (total : Nat) (acc : List TransferableInput),
      spendsLoop sf time 0 fee outs total acc
        = (addAmounts total (selInputs sf time outs), acc ++ selInputs sf time outs)
  | [], total, acc => by simp [spendsLoop, addAmounts_nil, selInputs_nil]
  | u :: rest, total, acc => by
    cases hsf : sf u.out time with
    | error e =>
      simp only [spendsLoop, hsf]
      rw [spendsLoop_sweep sf time fee rest total acc,
        selInputs_cons_err sf time u rest e hsf]
    | ok amt =>
      simp only [spendsLoop, hsf]
      rw [if_neg (by simp)]
      rw [spendsLoop_sweep sf time fee rest ((total + amt) % two64) (acc ++ [mkInput u amt]),
        selInputs_cons_ok sf time u rest amt hsf]
      simp [addAmounts_cons, mkInput, List.append_assoc]

/-- A UTXO whose spend attempt fails is transparent to the loop. -/
theorem spendsLoop_skip {σ : Type} (sf : σ → Nat → Except Err Nat)
    (time target fee : Nat) (u : UTXO σ) (e : Err) (hu : sf u.out time = .error e) :
    ∀ (pre post : List (UTXO σ)) (total : Nat) (acc : List TransferableInput),
      spendsLoop sf time target fee (pre ++ u :: post) total acc
        = spendsLoop sf time target fee (pre ++ post) total acc
  | [], post, total, acc => by simp only [List.nil_append, spendsLoop, hu]
  | v :: pre, post, total, acc => by
    cases hv : sf v.out time with
    | error e2 =>
      simp only [List.cons_append, spendsLoop, hv]
      exact spendsLoop_skip sf time target fee u e hu pre post total acc
    | ok amt =>
      simp only [List.cons_append, spendsLoop, hv]
      by_cases hbr : 0 < target ∧ (target + fee) % two64 < (total + amt) % two64
      · rw [if_pos hbr, if_pos hbr]
      · rw [if_neg hbr, if_neg hbr]
        exact spendsLoop_skip sf time target fee u e hu pre post _ _

/-- When no candidate is spendable the loop changes nothing. -/
theorem spendsLoop_all_err {σ : Type} (sf : σ → Nat → Except Err Nat)
    (time target fee : Nat) :
    ∀ (outs : List (UTXO σ)) (total : Nat) (acc : List TransferableInput),
      (∀ u ∈ outs, ∃ e, sf u.out time = .error e) →
      spendsLoop sf time target fee outs total acc = (total, acc)
  | [], total, acc => fun _ => rfl
  | u :: rest, total, acc => by
    intro h
    obtain ⟨e, he⟩ := h u (List.mem_cons_self u rest)
    simp only [spendsLoop, he]
    exact spendsLoop_all_err sf time target fee rest total acc
      fun v hv => h v (List.mem_cons_of_mem u hv)

/-- As soon as an accepted input pushes the 64-bit running total
strictly above the 64-bit sum `target + fee` (with a positive target),
the loop returns at once: the remaining candidates are not examined. -/
theorem spendsLoop_stop {σ : Type} (sf : σ → Nat → Except Err Nat)
    (time target fee : Nat) (u : UTXO σ) (rest : List (UTXO σ))
    (total : Nat) (acc : List TransferableInput) (amt : Nat)
    (hu : sf u.out time = .ok amt) (htgt : 0 < target)
    (hover : (target + fee) % two64 < (total + amt) % two64) :
    spendsLoop sf time target fee (u :: rest) total acc
      = ((total + amt) % two64, acc ++ [mkInput u amt]) := by
  simp only [spendsLoop, hu]
  rw [if_pos ⟨htgt, hover⟩]

/-! Claim theorems. -/

/-- C1: for every valid 32-byte private key, encoding it (fixed
`PrivateKey-` prefix plus checksummed CB58 payload, via
`encodePrivateKey`) and then decoding the result via `decodePrivateKey`
succeeds and yields a key whose bytes are exactly the original key's
bytes (round-trip law).  Stated for every 4-byte digest function, which
covers the production digest. -/
theorem claim_C1 (cs : List Nat → List Nat) (pk : List Nat)
    (hcsLen : (cs pk).length = 4) (hpk : pk.length = 32)
    (hpkB : ∀ x ∈ pk, x < 256) (hcsB : ∀ x ∈ cs pk, x < 256) :
    (encodePrivateKey cs pk).bind (decodePrivateKey cs) = .ok pk := by
  rw [encodePrivateKey_ok cs pk hpk]
  exact decodePrivateKey_encode cs pk hcsLen hpk hpkB hcsB

theorem claim_C1_witness :
    (cs0 pkA).length = 4 ∧ pkA.length = 32 ∧
      (encodePrivateKey cs0 pkA).bind (decodePrivateKey cs0) = .ok pkA :=
  ⟨by decide, by decide,
    claim_C1 cs0 pkA (by decide) (by decide) (by decide) (by decide)⟩

/-- C2: with a positive target, `Spends` stops as soon as the running
total — the 64-bit accumulator `totalBalanceToSpend` — strictly exceeds
the 64-bit sum `targetAmount + feeDeduct`; the input that caused the
excess is kept and the remaining candidates are never examined (the
loop's value does not depend on them).  In particular, on three
spendable UTXOs of amount 10 with target 15 and no fee it returns two
inputs and total 20. -/
theorem claim_C2 :
    (∀ (σ : Type) (sf : σ → Nat → Except Err Nat) (time target fee : Nat)
      (u : UTXO σ) (rest : List (UTXO σ)) (total : Nat) (acc : List TransferableInput)
      (amt : Nat), sf u.out time = .ok amt → 0 < target →
        (target + fee) % two64 < (total + amt) % two64 →
        spendsLoop sf time target fee (u :: rest) total acc
          = ((total + amt) % two64, acc ++ [mkInput u amt])) ∧
    Spends exSpendFn [exUTXO 1 10, exUTXO 2 10, exUTXO 3 10] (exOp 15)
      = (20, [mkInput (exUTXO 1 10) 10, mkInput (exUTXO 2 10) 10]) := by
  constructor
  · intro σ sf time target fee u rest total acc amt hu htgt hover
    exact spendsLoop_stop sf time target fee u rest total acc amt hu htgt hover
  · decide

theorem claim_C2_witness :
    spendsLoop exSpendFn 0 15 0 [exUTXO 3 10] 12 []
      = ((12 + 10) % two64, [mkInput (exUTXO 3 10) 10]) :=
  claim_C2.1 Nat exSpendFn 0 15 0 (exUTXO 3 10) [] 12 [] 10 rfl (by decide) (by decide)

/-- C3 (refuted as stated): the sweep total the code returns is the
64-bit wrapped sum, not the mathematical sum of the spendable amounts.
On two spendable UTXOs of amount `2^63` with target 0, both are
selected but the returned total is 0 while the sum of their spendable
amounts is `2^64`. -/
theorem claim_C3_counterexample :
    (Spends exSpendFn [exUTXO 1 (2 ^ 63), exUTXO 2 (2 ^ 63)] (exOp 0)).1 = 0 ∧
    ((Spends exSpendFn [exUTXO 1 (2 ^ 63), exUTXO 2 (2 ^ 63)] (exOp 0)).2).length = 2 ∧
    sumAmounts (selInputs exSpendFn 0 [exUTXO 1 (2 ^ 63), exUTXO 2 (2 ^ 63)]) = 2 ^ 64 ∧
    (0 : Nat) ≠ 2 ^ 64 :=
  ⟨by decide, by decide, by decide, by decide⟩

/-- C3 (amended): with `targetAmount = 0`, `Spends` sweeps the whole
candidate list, selecting every spendable UTXO; the returned total is
the 64-bit running sum of their spendable amounts — the mathematical sum
reduced modulo `2^64` — and equals that sum exactly whenever it is below
`2^64`; an empty candidate list gives `(0, [])`, and so does a list with
no spendable UTXO — never an error. -/
theorem claim_C3_amended {σ : Type} (sf : σ → Nat → Except Err Nat) (outs : List (UTXO σ))
    (op : Op) :
    (op.targetAmount = 0 →
      Spends sf outs op
        = (selTotal sf op.time outs, sortInputs (selInputs sf op.time outs))) ∧
    selTotal sf op.time outs = sumAmounts (selInputs sf op.time outs) % two64 ∧
    (op.targetAmount = 0 → sumAmounts (selInputs sf op.time outs) < two64 →
      (Spends sf outs op).1 = sumAmounts (selInputs sf op.time outs)) ∧
    Spends sf ([] : List (UTXO σ)) op = (0, []) ∧
    ((∀ u ∈ outs, ∃ e, sf u.out op.time = .error e) → Spends sf outs op = (0, [])) := by
  have hsweep : op.targetAmount = 0 →
      Spends sf outs op
        = (selTotal sf op.time outs, sortInputs (selInputs sf op.time outs)) := by
    intro h0
    simp only [Spends, h0, spendsLoop_sweep, List.nil_append, selTotal]
  refine ⟨hsweep, selTotal_eq_mod sf op.time outs, ?_, rfl, ?_⟩
  · intro h0 hlt
    rw [hsweep h0]
    rw [selTotal_eq_mod sf op.time outs]
    exact Nat.mod_eq_of_lt hlt
  · intro hall
    simp only [Spends, spendsLoop_all_err sf op.time op.targetAmount op.feeDeduct outs 0 [] hall]
    rfl

theorem claim_C3_witness :
    Spends exSpendFn [exUTXO 3 10, exUTXO 1 10, exUTXO 2 10] (exOp 0)
      = (30, [mkInput (exUTXO 1 10) 10, mkInput (exUTXO 2 10) 10,
              mkInput (exUTXO 3 10) 10]) ∧
    (Spends exSpendFn [exUTXO 3 10, exUTXO 1 10, exUTXO 2 10] (exOp 0)).1
      = sumAmounts (selInputs exSpendFn 0 [exUTXO 3 10, exUTXO 1 10, exUTXO 2 10]) ∧
    Spends exSpendFn ([] : List (UTXO Nat)) (exOp 0) = (0, []) ∧
    Spends exSpendFn [exUTXO 1 0] (exOp 0) = (0, []) := by
  refine ⟨?_,
    (claim_C3_amended exSpendFn [exUTXO 3 10, exUTXO 1 10, exUTXO 2 10] (exOp 0)).2.2.1
      rfl (by decide),
    (claim_C3_amended exSpendFn [] (exOp 0)).2.2.2.1,
    (claim_C3_amended exSpendFn [exUTXO 1 0] (exOp 0)).2.2.2.2 ?_⟩
  · have h := (claim_C3_amended exSpendFn [exUTXO 3 10, exUTXO 1 10, exUTXO 2 10] (exOp 0)).1 rfl
    rw [h]
    decide
  · intro u hu
    have hu1 : u = exUTXO 1 0 := by simpa using hu
    exact ⟨.invalidType, by rw [hu1]; decide⟩

/-- C4: the input list returned by `Spends` is always sorted by the
canonical order on UTXO identifiers (transaction id, then output index);
the sort is applied unconditionally before returning. -/
theorem claim_C4 {σ : Type} (sf : σ → Nat → Except Err Nat) (outs : List (UTXO σ))
    (op : Op) : List.Sorted tiLe (Spends sf outs op).2 :=
  sortInputs_sorted _

/-- C5: a UTXO whose per-output spend attempt fails contributes nothing
to the total or the input list and does not stop the processing of the
remaining candidates: the result equals the result on the candidate
list with that UTXO removed. -/
theorem claim_C5 {σ : Type} (sf : σ → Nat → Except Err Nat) (op : Op)
    (pre post : List (UTXO σ)) (u : UTXO σ) (e : Err)
    (hu : sf u.out op.time = .error e) :
    Spends sf (pre ++ u :: post) op = Spends sf (pre ++ post) op := by
  simp only [Spends,
    spendsLoop_skip sf op.time op.targetAmount op.feeDeduct u e hu pre post 0 []]

theorem claim_C5_witness :
    Spends exSpendFn [exUTXO 1 10, exUTXO 9 0, exUTXO 2 10] (exOp 0)
      = Spends exSpendFn [exUTXO 1 10, exUTXO 2 10] (exOp 0) :=
  claim_C5 exSpendFn (exOp 0) [exUTXO 1 10] [exUTXO 2 10] (exUTXO 9 0) .invalidType rfl

/-- C6: a file of exactly 64 hex characters followed by zero, one or two
`'\n'`/`'\r'` bytes loads successfully; with three such bytes `Load`
fails with `invalidPrivateKeyLen`; a trailing byte that is not
`'\n'`/`'\r'` fails with `invalidPrivateKeyEnding`. -/
theorem claim_C6 (cs : List Nat → List Nat) (fresh : List Nat) (networkID : Nat)
    (hex64 : List Char) (hlen : hex64.length = 64)
    (hhex : ∀ c ∈ hex64, (hexDigit c).isSome = true) :
    (∀ trailer, (∀ c ∈ trailer, c = '\n' ∨ c = '\r') → trailer.length ≤ 2 →
      ∃ m, Load cs fresh networkID (hex64 ++ trailer) = .ok m) ∧
    (∀ a b c, (a = '\n' ∨ a = '\r') → (b = '\n' ∨ b = '\r') → (c = '\n' ∨ c = '\r') →
      Load cs fresh networkID (hex64 ++ [a, b, c]) = .error .invalidPrivateKeyLen) ∧
    (∀ nls x t, (∀ c ∈ nls, c = '\n' ∨ c = '\r') → ¬ (x = '\n' ∨ x = '\r') →
      nls.length + t.length ≤ 2 →
      Load cs fresh networkID (hex64 ++ nls ++ x :: t) = .error .invalidPrivateKeyEnding) := by
  refine ⟨?_, ?_, ?_⟩
  · intro trailer htr htrLen
    exact Load_hex_trailer_ok cs fresh networkID hex64 trailer hlen hhex htr htrLen
  · intro a b c ha hb hc
    exact Load_hex_three_newlines cs fresh networkID hex64 a b c hlen hhex ha hb hc
  · intro nls x t hnls hx ht
    exact Load_hex_bad_trailer cs fresh networkID hex64 nls x t hlen hhex hnls
      (by omega) hx ht

theorem claim_C6_witness :
    (∃ m, Load cs0 fresh0 1 (List.replicate 64 'a' ++ ['\n', '\r']) = .ok m) ∧
    Load cs0 fresh0 1 (List.replicate 64 'a' ++ ['\n', '\n', '\n'])
      = .error .invalidPrivateKeyLen ∧
    Load cs0 fresh0 1 (List.replicate 64 'a' ++ ['\n'] ++ ['x'])
      = .error .invalidPrivateKeyEnding := by
  have h := claim_C6 cs0 fresh0 1 (List.replicate 64 'a') (by decide) (by decide)
  exact ⟨h.1 ['\n', '\r'] (by decide) (by decide),
    h.2.1 '\n' '\n' '\n' (Or.inl rfl) (Or.inl rfl) (Or.inl rfl),
    h.2.2 ['\n'] 'x' [] (by decide) (by decide) (by decide)⟩

/-- C7 (refuted as stated): a file of 64 printable characters containing
a non-hex byte passes the framing checks (`readASCII` stores all 64
bytes, the ending check sees nothing) and `Load` then fails with the hex
decoder's invalid-byte error — not with `invalidPrivateKeyLen` as the
claim asserts.  Witnessed on the file of 64 `'z'` characters. -/
theorem claim_C7_counterexample :
    Load cs0 fresh0 1 (List.replicate 64 'z') = .error .hexBadByte ∧
    Err.hexBadByte ≠ Err.invalidPrivateKeyLen := by
  constructor
  · apply Load_hex_error_passthrough
    · exact New_encoded_long_fails cs0 fresh0 1 _
        (replaceFirst_eq_self_of_no_dash _ (by decide)) (by decide)
    · decide
    · decide
    · decide
  · decide

/-- C7 (amended): for a key file that is not a valid encoded-key string,
a non-hex byte among the first 64 characters fails with
`invalidPrivateKeyLen` only when it is a sub-printable (control) byte,
because the scan stops early; with 64 printable bytes the framing checks
pass and `Load` fails with the hex decoder's own error instead. -/
theorem claim_C7_amended (cs : List Nat → List Nat) (fresh : List Nat) (networkID : Nat) :
    (∀ (pre : List Char) (c : Char) (rest : List Char),
      (∃ e, New cs fresh networkID
        { privKey := none, privKeyEncoded := pre ++ c :: rest,
          time := 0, targetAmount := 0, feeDeduct := 0 } = .error e) →
      (∀ x ∈ pre, ¬ x < '!') → pre.length < 64 → c < '!' →
      Load cs fresh networkID (pre ++ c :: rest) = .error .invalidPrivateKeyLen) ∧
    (∀ (content : List Char) (e' : Err),
      (∃ e, New cs fresh networkID
        { privKey := none, privKeyEncoded := content,
          time := 0, targetAmount := 0, feeDeduct := 0 } = .error e) →
      content.length = 64 → (∀ x ∈ content, ¬ x < '!') →
      hexDecode content = .error e' →
      Load cs fresh networkID content = .error e') := by
  constructor
  · intro pre c rest hNew hprint hpre hc
    exact Load_ctl_before_64 cs fresh networkID pre c rest hNew hprint hpre hc
  · intro content e' hNew hlen hprint hhexErr
    exact Load_hex_error_passthrough cs fresh networkID content e' hNew hlen hprint hhexErr

theorem claim_C7_witness :
    Load cs0 fresh0 1 ([] ++ '\x09' :: List.replicate 63 'z')
      = .error .invalidPrivateKeyLen ∧
    Load cs0 fresh0 1 (List.replicate 64 'z') = .error .hexBadByte := by
  constructor
  · exact (claim_C7_amended cs0 fresh0 1).1 [] '\x09' (List.replicate 63 'z')
      ⟨.cb58BadChar, by decide⟩ (by decide) (by decide) (by decide)
  · exact (claim_C7_amended cs0 fresh0 1).2 (List.replicate 64 'z') .hexBadByte
      (New_encoded_long_fails cs0 fresh0 1 _
        (replaceFirst_eq_self_of_no_dash _ (by decide)) (by decide))
      (by decide) (by decide) (by decide)

/-- C8: construction with both a raw key and an encoded string whose
decoded bytes differ fails with `invalidPrivateKey`; a matching raw key
and encoded string succeed (and keep the raw key). -/
theorem claim_C8 (cs : List Nat → List Nat) (fresh : List Nat) (networkID : Nat)
    (tt ta fd : Nat) :
    (∀ (enc : List Char) (k0 k : List Nat),
      decodePrivateKey cs enc = .ok k → k0 ≠ k →
      New cs fresh networkID
        { privKey := some k0, privKeyEncoded := enc,
          time := tt, targetAmount := ta, feeDeduct := fd } = .error .invalidPrivateKey) ∧
    (∀ pk : List Nat, (cs pk).length = 4 → pk.length = 32 →
      (∀ x ∈ pk, x < 256) → (∀ x ∈ cs pk, x < 256) →
      ∃ m, New cs fresh networkID
        { privKey := some pk, privKeyEncoded := privKeyEncPfx ++ b58Encode (pk ++ cs pk),
          time := tt, targetAmount := ta, feeDeduct := fd } = .ok m ∧
        m.privKeyRaw = pk) := by
  constructor
  · intro enc k0 k hdec hne
    exact New_mismatch cs fresh networkID enc k0 k tt ta fd hdec hne
  · intro pk hcsLen hpk hpkB hcsB
    exact ⟨_, New_match_ok cs fresh networkID pk tt ta fd hcsLen hpk hpkB hcsB, rfl⟩

theorem claim_C8_witness :
    New cs0 fresh0 1
      { privKey := some pkB, privKeyEncoded := privKeyEncPfx ++ b58Encode (pkA ++ cs0 pkA),
        time := 0, targetAmount := 0, feeDeduct := 0 } = .error .invalidPrivateKey ∧
    (∃ m, New cs0 fresh0 1
      { privKey := some pkA, privKeyEncoded := privKeyEncPfx ++ b58Encode (pkA ++ cs0 pkA),
        time := 0, targetAmount := 0, feeDeduct := 0 } = .ok m ∧ m.privKeyRaw = pkA) :=
  ⟨(claim_C8 cs0 fresh0 1 0 0 0).1 _ pkB pkA
      (decodePrivateKey_encode cs0 pkA (by decide) (by decide) (by decide) (by decide))
      (by decide),
    (claim_C8 cs0 fresh0 1 0 0 0).2 pkA (by decide) (by decide) (by decide) (by decide)⟩

/-- C9 (refuted as stated): the total `Spends` returns is the 64-bit
wrapped sum of the returned inputs' amounts, not their mathematical sum.
On spendable amounts `[2^63, 2^63, 6]` with target 0, all three inputs
are returned with total 6 while the sum of the returned amounts is
`2^64 + 6`. -/
theorem claim_C9_counterexample :
    (Spends exSpendFn [exUTXO 1 (2 ^ 63), exUTXO 2 (2 ^ 63), exUTXO 3 6] (exOp 0)).1 = 6 ∧
    sumAmounts (Spends exSpendFn [exUTXO 1 (2 ^ 63), exUTXO 2 (2 ^ 63), exUTXO 3 6]
      (exOp 0)).2 = 2 ^ 64 + 6 ∧
    (6 : Nat) ≠ 2 ^ 64 + 6 :=
  ⟨by decide, by decide, by decide⟩

/-- C9 (amended): every input returned by `Spends` comes from a distinct
UTXO of a prefix of the candidate list (the returned list is a
permutation of the inputs built from that prefix's spendable elements),
each input's amount is the spendable amount its source UTXO's spend
attempt returned, and the returned total is the 64-bit sum of the
returned inputs' amounts — their mathematical sum reduced modulo `2^64`,
and exactly that sum whenever it is below `2^64`. -/
theorem claim_C9_amended {σ : Type} (sf : σ → Nat → Except Err Nat) (outs : List (UTXO σ))
    (op : Op) :
    ∃ p, p <+: outs ∧
      (Spends sf outs op).2.Perm (selInputs sf op.time p) ∧
      (Spends sf outs op).1 = sumAmounts (Spends sf outs op).2 % two64 ∧
      (sumAmounts (Spends sf outs op).2 < two64 →
        (Spends sf outs op).1 = sumAmounts (Spends sf outs op).2) ∧
      ∀ ti ∈ (Spends sf outs op).2, ∃ u ∈ outs, ∃ amt,
        sf u.out op.time = .ok amt ∧ ti = mkInput u amt := by
  obtain ⟨p, hp, heq⟩ := spendsLoop_shape sf op.time op.targetAmount op.feeDeduct outs 0 []
  have hS : Spends sf outs op
      = (addAmounts 0 (selInputs sf op.time p), sortInputs (selInputs sf op.time p)) := by
    simp only [Spends, heq, List.nil_append]
  have hsum : sumAmounts (sortInputs (selInputs sf op.time p))
      = sumAmounts (selInputs sf op.time p) := by
    rw [sumAmounts, sumAmounts]
    exact ((sortInputs_perm (selInputs sf op.time p)).map TransferableInput.inAmount).sum_eq
  have htot : (Spends sf outs op).1 = sumAmounts (Spends sf outs op).2 % two64 := by
    rw [hS]
    rw [addAmounts_eq_mod _ 0 two64_pos, Nat.zero_add, hsum]
  refine ⟨p, hp, ?_, htot, ?_, ?_⟩
  · rw [hS]
    exact sortInputs_perm _
  · intro hlt
    rw [htot]
    exact Nat.mod_eq_of_lt hlt
  · intro ti hti
    rw [hS] at hti
    have hmem : ti ∈ selInputs sf op.time p :=
      (sortInputs_perm (selInputs sf op.time p)).mem_iff.mp hti
    obtain ⟨u, hu, hmk⟩ := List.mem_filterMap.mp hmem
    refine ⟨u, hp.sublist.subset hu, ?_⟩
    cases hsf : sf u.out op.time with
    | error e =>
      rw [hsf] at hmk
      exact absurd hmk (by simp)
    | ok amt =>
      rw [hsf] at hmk
      exact ⟨amt, rfl, by simpa using hmk.symm⟩

theorem claim_C9_witness :
    ∃ p, p <+: [exUTXO 1 10, exUTXO 2 10] ∧
      (Spends exSpendFn [exUTXO 1 10, exUTXO 2 10] (exOp 0)).2.Perm
        (selInputs exSpendFn (exOp 0).time p) ∧
      (Spends exSpendFn [exUTXO 1 10, exUTXO 2 10] (exOp 0)).1
        = sumAmounts (Spends exSpendFn [exUTXO 1 10, exUTXO 2 10] (exOp 0)).2 % two64 ∧
      (sumAmounts (Spends exSpendFn [exUTXO 1 10, exUTXO 2 10] (exOp 0)).2 < two64 →
        (Spends exSpendFn [exUTXO 1 10, exUTXO 2 10] (exOp 0)).1
          = sumAmounts (Spends exSpendFn [exUTXO 1 10, exUTXO 2 10] (exOp 0)).2) ∧
      ∀ ti ∈ (Spends exSpendFn [exUTXO 1 10, exUTXO 2 10] (exOp 0)).2,
        ∃ u ∈ [exUTXO 1 10, exUTXO 2 10], ∃ amt,
          exSpendFn u.out (exOp 0).time = .ok amt ∧ ti = mkInput u amt :=
  claim_C9_amended exSpendFn [exUTXO 1 10, exUTXO 2 10] (exOp 0)

/-- C10: `decodePrivateKey` does not require the prefix — a bare
checksummed-CB58 string decodes to the same key as the prefixed form —
but `New` called with such an unprefixed string fails with
`invalidPrivateKeyEncoding` because the recomputed canonical encoding
always carries the prefix; consequently every successfully constructed
manager's encoded form starts with `PrivateKey-`. -/
theorem claim_C10 (cs : List Nat → List Nat) (fresh : List Nat) (networkID : Nat)
    (pk : List Nat) (tt ta fd : Nat)
    (hcsLen : (cs pk).length = 4) (hpk : pk.length = 32)
    (hpkB : ∀ x ∈ pk, x < 256) (hcsB : ∀ x ∈ cs pk, x < 256) :
    decodePrivateKey cs (b58Encode (pk ++ cs pk)) = .ok pk ∧
    decodePrivateKey cs (privKeyEncPfx ++ b58Encode (pk ++ cs pk)) = .ok pk ∧
    New cs fresh networkID
      { privKey := none, privKeyEncoded := b58Encode (pk ++ cs pk),
        time := tt, targetAmount := ta, feeDeduct := fd }
      = .error .invalidPrivateKeyEncoding ∧
    (∀ (op : Op) (m : SManager), New cs fresh networkID op = .ok m →
      privKeyEncPfx <+: m.privKeyEncoded) :=
  ⟨decodePrivateKey_encode_bare cs pk hcsLen hpk hpkB hcsB,
    decodePrivateKey_encode cs pk hcsLen hpk hpkB hcsB,
    New_unprefixed cs fresh networkID pk tt ta fd hcsLen hpk hpkB hcsB,
    fun op m h => New_ok_prefix cs fresh networkID op m h⟩

theorem claim_C10_witness :
    decodePrivateKey cs0 (b58Encode (pkA ++ cs0 pkA)) = .ok pkA ∧
    New cs0 fresh0 1
      { privKey := none, privKeyEncoded := b58Encode (pkA ++ cs0 pkA),
        time := 0, targetAmount := 0, feeDeduct := 0 }
      = .error .invalidPrivateKeyEncoding ∧
    (∃ m, New cs0 fresh0 1
      { privKey := some pkA, privKeyEncoded := [],
        time := 0, targetAmount := 0, feeDeduct := 0 } = .ok m ∧
      privKeyEncPfx <+: m.privKeyEncoded) := by
  have h := claim_C10 cs0 fresh0 1 pkA 0 0 0 (by decide) (by decide) (by decide) (by decide)
  exact ⟨h.1, h.2.2.1,
    ⟨_, New_raw_ok cs0 fresh0 1 pkA (by decide),
      h.2.2.2 _ _ (New_raw_ok cs0 fresh0 1 pkA (by decide))⟩⟩

end Key
